import Mathlib

/-!
Verification development for the vscode-snakefmt-provider extension.

The definitions below are a shallow embedding of the extension's code:

* `extension.ts` (`SnakemakeDocumentFormattingEditProvider.doFormatDocument`,
  `getExecutablePath`) — subprocess argument construction, trailing-terminator
  handling of the text written to the formatter's stdin, the `execFile`
  callback's error branches, cancellation, and the spawn options;
* `snakefmtPath.ts` (`getBinPath`) — executable lookup on `PATH`;
* `src/common/settings.ts` (`resolveVariables`) — placeholder substitution,
  including a faithful model of JavaScript's `String.prototype.replace`
  with a string pattern (first occurrence only, `$`-directives expanded in
  the replacement string);
* the patch-translation module `editor.ts` (`getTextEditsFromPatch`), which
  is imported by `extension.ts` but whose source is not available; it is
  modelled from the specification (marked below).

JavaScript strings are represented as `String`; operations that must be
evaluated inside proofs are implemented over the underlying `List Char`.
Filesystem access (`fs.existsSync`), path joining (`path.join`) and the
`PATH` delimiter are passed in as explicit parameters, so every definition
is a pure function of its inputs.
-/

namespace Snakefmt

/-- Boolean suffix test over the character lists of two strings
(models JavaScript `String.prototype.endsWith`). -/
def strEndsWith (s suffix : String) : Bool :=
  List.isSuffixOf suffix.data s.data

/-- Boolean prefix test over the character lists of two strings
(models JavaScript `String.prototype.startsWith`). -/
def strStartsWith (s pre : String) : Bool :=
  List.isPrefixOf pre.data s.data

/-- Length of a string in characters (models JavaScript `String.length`
for the inputs considered here). -/
def strLen (s : String) : Nat := s.data.length

/-- `vscode.EndOfLine`: the end-of-line sequence of a text document. -/
inductive EndOfLine where
  | LF
  | CRLF
deriving DecidableEq

/-- Embeds line 369 of `extension.ts`
(`let eol = document.eol === vscode.EndOfLine.CRLF ? '\n': '\r\n';`):
the terminator string the code selects for the document. -/
def eolChosen (docEol : EndOfLine) : String :=
  match docEol with
  | .CRLF => "\n"
  | .LF => "\r\n"

/-- Embeds lines 369-372 of `extension.ts`: the text actually written to the
formatter subprocess's stdin, after the trailing-terminator adjustment
(`if(!codeContent.endsWith(eol)){ codeContent += eol; }`). -/
def contentWritten (docEol : EndOfLine) (codeContent : String) : String :=
  if strEndsWith codeContent (eolChosen docEol) then codeContent
  else codeContent ++ eolChosen docEol

/-- A text edit over the original document: replace the character span
`[start, stop)` by `newText` (models `vscode.TextEdit`). -/
structure TextEdit where
  start : Nat
  stop : Nat
  newText : List Char
deriving DecidableEq

/-- A diff hunk: 1-based starting line in the original text, number of
original lines replaced, and the literal replacement lines. -/
structure Hunk where
  origStart : Nat
  origCount : Nat
  replacement : List String
deriving DecidableEq

/-- A requested sub-range for range formatting, at line granularity:
lines `[startLine, endLine)` (0-based) of the original document. -/
structure SubRange where
  startLine : Nat
  endLine : Nat
deriving DecidableEq

/-- Character offset of the start of 0-based line `n` in a character list,
clamped to the end of the text: this models the document's own line
indexing (`document.offsetAt` of the position at column 0 of line `n`). -/
def lineStart : List Char → Nat → Nat
  | _, 0 => 0
  | [], _ + 1 => 0
  | c :: cs, n + 1 =>
    if c = '\n' then 1 + lineStart cs n else 1 + lineStart cs (n + 1)

/-- Split a character list on a delimiter character (models
`String.prototype.split` with a one-character separator). -/
def splitOnChar (delim : Char) : List Char → List (List Char)
  | [] => [[]]
  | c :: cs =>
    match splitOnChar delim cs with
    | [] => if c = delim then [[], [c]] else [[c]]
    | r :: rs => if c = delim then [] :: r :: rs else (c :: r) :: rs

/-- Parse a non-empty all-digit character list as a decimal number. -/
def parseDecimal (cs : List Char) : Option Nat :=
  if cs ≠ [] ∧ cs.all Char.isDigit then
    some (cs.foldl (fun acc c => acc * 10 + (c.toNat - 48)) 0)
  else none

/-- Modelled from the spec: the patch-translation module (`editor.ts`,
imported by `extension.ts` as `getTextEditsFromPatch`) is not among the
provided sources. Per spec section 4.4 step 1, each hunk of the diff output
identifies the 1-based starting line number in the original text and the
number of original lines it replaces; this parses a unified-diff hunk
header `@@ -a,b +c,d @@` into that pair (a missing count defaults to 1). -/
def parseHunkHeader (line : List Char) : Option (Nat × Nat) :=
  if List.isPrefixOf "@@ -".data line then
    match splitOnChar ',' ((line.drop 4).takeWhile (fun c => c ≠ ' ')) with
    | [a, b] =>
      match parseDecimal a, parseDecimal b with
      | some x, some y => some (x, y)
      | _, _ => none
    | [a] =>
      match parseDecimal a with
      | some x => some (x, 1)
      | _ => none
    | _ => none
  else none

/-- Modelled from the spec (the patch-translation module `editor.ts` is not
among the provided sources): one step of hunk collection over the diff's
lines. A header line starts a new hunk; a `+`-prefixed line inside a hunk
contributes a replacement line; other lines are ignored. The state is the
completed hunks together with the hunk currently being built. -/
def stepLine (st : List Hunk × Option Hunk) (line : List Char) : List Hunk × Option Hunk :=
  match parseHunkHeader line with
  | some ab =>
    (st.1 ++ st.2.toList, some { origStart := ab.1, origCount := ab.2, replacement := [] })
  | none =>
    match st.2 with
    | some h =>
      if List.isPrefixOf "+".data line then
        (st.1, some { h with replacement := h.replacement ++ [String.mk (line.drop 1)] })
      else st
    | none => st

/-- Modelled from the spec (section 4.4 step 1; the patch-translation module
`editor.ts` is not among the provided sources): parse the formatter's diff
output as a sequence of hunks. Empty diff output yields no hunks. -/
def parseCompactDiff (diff : String) : List Hunk :=
  let st := (splitOnChar '\n' diff.data).foldl stepLine ([], none)
  st.1 ++ st.2.toList

/-- Modelled from the spec (section 4.4 step 3; the patch-translation module
`editor.ts` is not among the provided sources): the 0-based absolute start
line of a hunk, obtained by adding the sub-range's starting line to the
hunk-relative 1-based line number. -/
def hunkAbsStartLine (sub : Option SubRange) (h : Hunk) : Nat :=
  (match sub with
   | none => 0
   | some r => r.startLine) + (h.origStart - 1)

/-- Modelled from the spec (section 4.4 step 3; the patch-translation module
`editor.ts` is not among the provided sources): hunks that fall outside the
requested sub-range are discarded — of the spec's "discard or clip" policy
choice this model documents and uses discard. A hunk is kept iff its
absolute line span fits inside the sub-range. -/
def hunkKeep (sub : Option SubRange) (h : Hunk) : Bool :=
  match sub with
  | none => true
  | some r => decide (r.startLine + (h.origStart - 1) + h.origCount ≤ r.endLine)

/-- Modelled from the spec (section 4.4 steps 2 and 4; the patch-translation
module `editor.ts` is not among the provided sources): one Text Edit per
kept hunk, spanning the original text of the hunk's absolute line span
(computed with the document's own line indexing), with the replacement
lines joined by line terminators. -/
def hunkToEdit (doc : List Char) (sub : Option SubRange) (h : Hunk) : TextEdit :=
  { start := lineStart doc (hunkAbsStartLine sub h)
  , stop := lineStart doc (hunkAbsStartLine sub h + h.origCount)
  , newText := h.replacement.foldr (fun l acc => l.data ++ '\n' :: acc) [] }

/-- Modelled from the spec (section 4.4; the patch-translation module
`editor.ts` is not among the provided sources): translate the formatter's
diff output into an ordered sequence of Text Edits over the original
document, discarding hunks outside the requested sub-range. -/
def getTextEditsFromPatch (doc : List Char) (diff : String) (sub : Option SubRange) : List TextEdit :=
  ((parseCompactDiff diff).filter (hunkKeep sub)).map (hunkToEdit doc sub)

/-- Apply a single text edit to the document's characters. -/
def applyEdit (doc : List Char) (e : TextEdit) : List Char :=
  doc.take e.start ++ e.newText ++ doc.drop e.stop

/-- Apply a sequence of text edits in order. -/
def applyEdits (doc : List Char) (es : List TextEdit) : List Char :=
  es.foldl applyEdit doc

/-- How the promise returned by `doFormatDocument` settles: `resolve` with
edits, `resolve(undefined)` (no edits), `reject` with a message string, or
`reject()` with no message. -/
inductive Settlement where
  | resolvedEdits (edits : List TextEdit)
  | resolvedNone
  | rejectedMsg (msg : String)
  | rejectedNoMsg
deriving DecidableEq

/-- Embeds the `cp.execFile` callback of `doFormatDocument`
(lines 388-407 of `extension.ts`). For a subprocess completion, Node's
`error` is non-null exactly when the exit code is non-zero, and then
`error.code` is that exit code and `error.message` the error message; the
model therefore takes the exit code, the error message, and the two output
streams directly. The success branch resolves with the translated edits. -/
def execFileCallback (codeContent : String) (sub : Option SubRange)
    (exitCode : Int) (errorMessage stdout stderr : String) : Settlement :=
  if exitCode ≠ 0 ∧ strLen stderr ≠ 0 then
    if strStartsWith errorMessage "Command failed:" then Settlement.resolvedNone
    else Settlement.rejectedMsg "Cannot format due to syntax errors."
  else if exitCode ≠ 0 then Settlement.rejectedNoMsg
  else Settlement.resolvedEdits (getTextEditsFromPatch codeContent.data stdout sub)

/-- Embeds the `token.onCancellationRequested` handler of `doFormatDocument`
(lines 415-420 of `extension.ts`): it kills the subprocess (first component
`true`) and rejects the pending promise with the cancellation message. -/
def onCancellationRequested : Bool × Settlement :=
  (true, Settlement.rejectedMsg "Cancelation requested")

/-- A promise keeps its first settlement: later `resolve`/`reject` calls are
ignored. The list holds the settlement attempts in the order they fire. -/
def promiseOutcome (attempts : List Settlement) : Option Settlement :=
  attempts.head?

/-- Embeds lines 382-386 of `extension.ts`: the argument list passed to the
formatter. `cfgFile` is the `snakefmt.config` setting (`none` when the key
is undefined); JavaScript truthiness makes the empty string falsy, and
`existsOnDisk` stands for `fs.existsSync`. -/
def buildArgs (cfgFile : Option String) (existsOnDisk : String → Bool) : List String :=
  let args := ["--compact-diff", "-"]
  match cfgFile with
  | some f => if f ≠ "" ∧ existsOnDisk f then args ++ ["--config", f] else args
  | none => args

/-- Embeds `getBinPath` of `snakefmtPath.ts` (lines 237-262), on a cache
miss (the memoization cache only replays the result of this computation for
a fixed filesystem). `existsOnDisk` stands for `fs.existsSync`, `pathEnv`
for `process.env.PATH` (`none` when unset; the empty string is falsy in
JavaScript), `delimiter` for `path.delimiter` (a single character on every
platform) and `joinPath` for `path.join`. -/
def getBinPath (existsOnDisk : String → Bool) (pathEnv : Option String)
    (delimiter : Char) (joinPath : String → String → String) (binname : String) : String :=
  if existsOnDisk binname then binname
  else
    match pathEnv with
    | some p =>
      if p ≠ "" then
        match ((splitOnChar delimiter p.data).map String.mk).find?
            (fun dir => existsOnDisk (joinPath dir binname)) with
        | some dir => joinPath dir binname
        | none => binname
      else binname
    | none => binname

/-- Expansion of a replacement string by JavaScript's
`String.prototype.replace`: `$$` yields a dollar, `$&` the matched
substring, a dollar followed by a backquote the text before the match, a
dollar followed by a quote the text after the match; any other character is
copied verbatim. (`Char.ofNat 96` is the backquote, `Char.ofNat 39` the
quote.) -/
def expandReplacement (matched before after : List Char) : List Char → List Char
  | [] => []
  | c :: rest =>
    if c = '$' then
      match rest with
      | [] => ['$']
      | d :: rest2 =>
        if d = '$' then '$' :: expandReplacement matched before after rest2
        else if d = '&' then matched ++ expandReplacement matched before after rest2
        else if d = Char.ofNat 96 then before ++ expandReplacement matched before after rest2
        else if d = Char.ofNat 39 then after ++ expandReplacement matched before after rest2
        else '$' :: d :: expandReplacement matched before after rest2
    else c :: expandReplacement matched before after rest

/-- Scanner underlying JavaScript's `s.replace(pat, repl)` with a string
pattern: `pre` is the already-scanned prefix; at the first position where
`pat` is a prefix of the remaining text the (expanded) replacement is
spliced in and the rest is kept; if the pattern never occurs the string is
returned unchanged. -/
def replaceFirstFrom (pat repl : List Char) (pre : List Char) : List Char → List Char
  | [] =>
    if List.isPrefixOf pat [] then pre ++ expandReplacement pat pre [] repl
    else pre
  | c :: rest =>
    if List.isPrefixOf pat (c :: rest) then
      pre ++ expandReplacement pat pre ((c :: rest).drop pat.length) repl
        ++ (c :: rest).drop pat.length
    else replaceFirstFrom pat repl (pre ++ [c]) rest

/-- JavaScript `s.replace(pat, repl)` with string pattern and string
replacement: replaces the first occurrence of `pat` in `s`, expanding the
`$`-directives of `repl` at the match site. -/
def jsReplaceFirst (s pat repl : List Char) : List Char :=
  replaceFirstFrom pat repl [] s

/-- Embeds lines 65-70 of `settings.ts`: each entry of the substitution map
is applied in insertion order by one JavaScript `replace` call. -/
def applySubstitutions (subs : List (List Char × List Char)) (s : List Char) : List Char :=
  subs.foldl (fun acc kv => jsReplaceFirst acc kv.1 kv.2) s

/-- Embeds `resolveVariables` of `settings.ts` (lines 28-71), with the
substitution map (built there from `$\x7buserHome\x7d`, workspace folders,
`$\x7bcwd\x7d` and the environment) passed in explicitly in its insertion
order. `interpreter` is `none` when the parameter is omitted; when present,
each element equal to the interpreter placeholder is spliced (lines 56-63),
and then every string has the substitution map applied to it. -/
def resolveVariables (subs : List (List Char × List Char))
    (interpreter : Option (List (List Char))) (value : List (List Char)) : List (List Char) :=
  let spliced := value.foldr
    (fun v acc =>
      match interpreter with
      | some interp => if v = "${interpreter}".data then interp ++ acc else v :: acc
      | none => v :: acc) []
  spliced.map (applySubstitutions subs)

/-- The options record passed to `cp.execFile`. -/
structure ExecFileOptions where
  windowsHide : Bool
  maxBuffer : Nat
  cwd : Option String
deriving DecidableEq

/-- The document fields `doFormatDocument` reads. -/
structure DocumentInfo where
  fileName : String
  isUntitled : Bool
  eol : EndOfLine
deriving DecidableEq

/-- Embeds lines 374-377 of `extension.ts`: the working path computed from
the first workspace folder, overridden by the directory of the document's
file name when the document is not untitled (`dirname` stands for
`path.dirname`). -/
def workingPath (workspaceFirst : Option String) (doc : DocumentInfo)
    (dirname : String → String) : String :=
  if doc.isUntitled then
    match workspaceFirst with
    | some w => w
    | none => ""
  else dirname doc.fileName

/-- Embeds line 387 of `extension.ts`: the options object passed to
`cp.execFile` is the literal `\x7bwindowsHide: true, maxBuffer:
1024*1024*1024\x7d`; no `cwd` is included and nothing of the document or
workspace flows into it. -/
def spawnOptions (_workspaceFirst : Option String) (_doc : DocumentInfo) : ExecFileOptions :=
  { windowsHide := true, maxBuffer := 1024 * 1024 * 1024, cwd := none }

/-! Helper lemmas. -/

theorem lineStart_le_succ (cs : List Char) (n : Nat) :
    lineStart cs n ≤ lineStart cs (n + 1) := by
  induction cs generalizing n with
  | nil => cases n <;> simp [lineStart]
  | cons c cs ih =>
    cases n with
    | zero => exact Nat.zero_le _
    | succ n =>
      by_cases h : c = '\n' <;>
        simp only [lineStart, h, if_true, if_false, reduceIte] <;>
        exact Nat.add_le_add_left (ih _) 1

theorem lineStart_mono (cs : List Char) {n m : Nat} (h : n ≤ m) :
    lineStart cs n ≤ lineStart cs m := by
  induction m with
  | zero => cases Nat.le_zero.mp h; exact Nat.le_refl _
  | succ m ih =>
    rcases Nat.lt_or_ge n (m + 1) with h' | h'
    · exact Nat.le_trans (ih (Nat.lt_succ_iff.mp h')) (lineStart_le_succ cs m)
    · cases Nat.le_antisymm h h'; exact Nat.le_refl _

theorem find?_eq_of_first {α : Type} (p : α → Bool) :
    ∀ (l : List α) (i : Nat) (hi : i < l.length),
      p (l.get ⟨i, hi⟩) = true →
      (∀ j (hj : j < i), p (l.get ⟨j, Nat.lt_trans hj hi⟩) = false) →
      l.find? p = some (l.get ⟨i, hi⟩) := by
  intro l
  induction l with
  | nil => intro i hi; exact absurd hi (by simp)
  | cons a l ih =>
    intro i hi hp hprev
    cases i with
    | zero =>
      simp only [List.get] at hp
      simp [List.find?_cons_of_pos _ hp]
    | succ i =>
      have ha : p a = false := by
        have := hprev 0 (Nat.succ_pos i)
        simpa using this
      rw [List.find?_cons_of_neg _ (by simp [ha])]
      have hi' : i < l.length := by simpa using hi
      have hp' : p (l.get ⟨i, hi'⟩) = true := by simpa using hp
      have hprev' : ∀ j (hj : j < i), p (l.get ⟨j, Nat.lt_trans hj hi'⟩) = false := by
        intro j hj
        have := hprev (j + 1) (Nat.succ_lt_succ hj)
        simpa using this
      simpa using ih i hi' hp' hprev'

theorem expandReplacement_no_dollar (matched before after : List Char) :
    ∀ repl : List Char, (∀ c ∈ repl, c ≠ '$') →
      expandReplacement matched before after repl = repl := by
  intro repl
  induction repl with
  | nil => intro _; rfl
  | cons c rest ih =>
    intro h
    have hc : c ≠ '$' := h c (by simp)
    have hrest := ih (fun x hx => h x (by simp [hx]))
    rw [expandReplacement.eq_def]
    simp [hc, hrest]

theorem replaceFirstFrom_pos (pat repl pre s : List Char)
    (h : List.isPrefixOf pat s = true) :
    replaceFirstFrom pat repl pre s =
      pre ++ expandReplacement pat pre (s.drop pat.length) repl ++ s.drop pat.length := by
  cases s with
  | nil =>
    have hpat : pat = [] := by simpa [List.isPrefixOf_iff_prefix] using h
    subst hpat
    simp [replaceFirstFrom]
  | cons c rest => simp [replaceFirstFrom, h]

theorem replaceFirstFrom_neg_cons (pat repl pre : List Char) (c : Char) (rest : List Char)
    (h : List.isPrefixOf pat (c :: rest) = false) :
    replaceFirstFrom pat repl pre (c :: rest) = replaceFirstFrom pat repl (pre ++ [c]) rest := by
  simp [replaceFirstFrom, h]

theorem replaceFirstFrom_splice (pat repl b : List Char) :
    ∀ (a pre : List Char),
      (∀ i, i < a.length → List.isPrefixOf pat (List.drop i a ++ pat ++ b) = false) →
      replaceFirstFrom pat repl pre (a ++ pat ++ b) =
        pre ++ a ++ expandReplacement pat (pre ++ a) b repl ++ b := by
  intro a
  induction a with
  | nil =>
    intro pre _
    have hpre : List.isPrefixOf pat (pat ++ b) = true :=
      List.isPrefixOf_iff_prefix.mpr (List.prefix_append pat b)
    have := replaceFirstFrom_pos pat repl pre (pat ++ b) hpre
    simpa [List.drop_left] using this
  | cons c a ih =>
    intro pre h
    have h0 : List.isPrefixOf pat (c :: (a ++ pat ++ b)) = false := by
      have := h 0 (Nat.succ_pos _)
      simpa using this
    have hshift : ∀ i, i < a.length → List.isPrefixOf pat (List.drop i a ++ pat ++ b) = false := by
      intro i hi
      have := h (i + 1) (Nat.succ_lt_succ hi)
      simpa using this
    calc replaceFirstFrom pat repl pre ((c :: a) ++ pat ++ b)
        = replaceFirstFrom pat repl (pre ++ [c]) (a ++ pat ++ b) := by
          rw [List.cons_append, List.cons_append]
          exact replaceFirstFrom_neg_cons pat repl pre c (a ++ pat ++ b) h0
      _ = (pre ++ [c]) ++ a ++ expandReplacement pat ((pre ++ [c]) ++ a) b repl ++ b :=
          ih (pre ++ [c]) hshift
      _ = pre ++ (c :: a) ++ expandReplacement pat (pre ++ (c :: a)) b repl ++ b := by
          simp

/-! Claim theorems. -/

/-- C1: the claim says the text written to the formatter's stdin preserves
the document's line endings and, when it does not already end with the
document's own end-of-line sequence, that exact sequence (CRLF for a CRLF
document, LF for an LF document) is appended. The code at line 369 of
`extension.ts` selects the terminator with the ternary inverted: it picks
`"\n"` for a CRLF document and `"\r\n"` for an LF document, so an LF
document whose text already ends in `"\n"` gets a spurious `"\r\n"`
appended. This theorem evaluates the embedded code at the failing inputs. -/
theorem c1_trailing_eol_inverted :
    eolChosen EndOfLine.CRLF = "\n" ∧
    eolChosen EndOfLine.LF = "\r\n" ∧
    contentWritten EndOfLine.LF "rule a:\n" = "rule a:\n\r\n" ∧
    contentWritten EndOfLine.LF "rule a:\n" ≠ "rule a:\n" ∧
    contentWritten EndOfLine.CRLF "rule a:" = "rule a:\n" := by
  refine ⟨rfl, rfl, by decide, by decide, by decide⟩

/-- C2: translating an empty diff yields an empty edit sequence, and
applying that sequence leaves the document unchanged. -/
theorem c2_empty_diff_idempotent :
    ∀ (doc : List Char) (sub : Option SubRange),
      getTextEditsFromPatch doc "" sub = [] ∧
      applyEdits doc (getTextEditsFromPatch doc "" sub) = doc := by
  intro doc sub
  have hp : parseCompactDiff "" = [] := rfl
  refine ⟨?_, ?_⟩
  · simp [getTextEditsFromPatch, hp]
  · simp [getTextEditsFromPatch, hp, applyEdits]

/-- C3: for a range-restricted format request, every hunk lying wholly
outside the requested sub-range is excluded from the emitted edit sequence,
and every emitted edit's span lies within the sub-range's character span,
so no edit modifies text outside the requested sub-range. -/
theorem c3_range_restricted_edits_within_range :
    ∀ (doc : List Char) (diff : String) (r : SubRange),
      (∀ e ∈ getTextEditsFromPatch doc diff (some r),
        lineStart doc r.startLine ≤ e.start ∧ e.stop ≤ lineStart doc r.endLine) ∧
      (∀ h : Hunk, r.endLine < r.startLine + (h.origStart - 1) →
        hunkKeep (some r) h = false) := by
  intro doc diff r
  constructor
  · intro e he
    simp only [getTextEditsFromPatch, List.mem_map] at he
    obtain ⟨h, hmem, rfl⟩ := he
    have hkeep : hunkKeep (some r) h = true := (List.mem_filter.mp hmem).2
    have hle : r.startLine + (h.origStart - 1) + h.origCount ≤ r.endLine := by
      simpa [hunkKeep] using hkeep
    constructor
    · exact lineStart_mono doc (Nat.le_add_right _ _)
    · exact lineStart_mono doc (by simpa [hunkAbsStartLine] using hle)
  · intro h hout
    simp only [hunkKeep, decide_eq_false_iff_not]
    omega

/-- Witness for C3 at a concrete document, diff and sub-range. -/
theorem c3_witness :
    lineStart "a\nb\nc\nd\n".data 1 ≤ (⟨2, 4, "x\n".data⟩ : TextEdit).start ∧
    (⟨2, 4, "x\n".data⟩ : TextEdit).stop ≤ lineStart "a\nb\nc\nd\n".data 3 :=
  (c3_range_restricted_edits_within_range "a\nb\nc\nd\n".data
    "@@ -1,1 +1,1 @@\n+x" ⟨1, 3⟩).1 ⟨2, 4, "x\n".data⟩ (by decide)

/-- C4: for a subprocess completion with non-zero exit status, the
`execFile` callback resolves with no edits when stderr is non-empty and the
error message indicates the binary could not be launched, rejects with the
syntax-error message when stderr is non-empty otherwise, and rejects with
no message when stderr is empty. -/
theorem c4_error_branches :
    ∀ (content : String) (sub : Option SubRange) (exitCode : Int)
      (msg stdout stderr : String), exitCode ≠ 0 →
      ((strLen stderr ≠ 0 → strStartsWith msg "Command failed:" = true →
          execFileCallback content sub exitCode msg stdout stderr = Settlement.resolvedNone) ∧
       (strLen stderr ≠ 0 → strStartsWith msg "Command failed:" = false →
          execFileCallback content sub exitCode msg stdout stderr =
            Settlement.rejectedMsg "Cannot format due to syntax errors.") ∧
       (strLen stderr = 0 →
          execFileCallback content sub exitCode msg stdout stderr = Settlement.rejectedNoMsg)) := by
  intro content sub exitCode msg stdout stderr hcode
  refine ⟨?_, ?_, ?_⟩
  · intro herr hmsg
    simp [execFileCallback, hcode, herr, hmsg]
  · intro herr hmsg
    simp [execFileCallback, hcode, herr, hmsg]
  · intro herr
    simp [execFileCallback, hcode, herr]

/-- Witness for C4 at concrete completions, one per branch. -/
theorem c4_witness :
    execFileCallback "x" none 1 "Command failed: snakefmt" "" "boom" = Settlement.resolvedNone ∧
    execFileCallback "x" none 1 "oops" "" "boom" =
      Settlement.rejectedMsg "Cannot format due to syntax errors." ∧
    execFileCallback "x" none 1 "Command failed: snakefmt" "" "" = Settlement.rejectedNoMsg :=
  ⟨(c4_error_branches "x" none 1 "Command failed: snakefmt" "" "boom"
      (by decide)).1 (by decide) (by decide),
   (c4_error_branches "x" none 1 "oops" "" "boom"
      (by decide)).2.1 (by decide) (by decide),
   (c4_error_branches "x" none 1 "Command failed: snakefmt" "" ""
      (by decide)).2.2 (by decide)⟩

/-- C5: when the cancellation token fires before the subprocess completes,
the handler kills the subprocess, the promise settles as a rejection with
the cancellation message, and no Text Edits are produced. -/
theorem c5_cancellation :
    ∀ later : List Settlement,
      promiseOutcome (onCancellationRequested.2 :: later) =
        some (Settlement.rejectedMsg "Cancelation requested") ∧
      onCancellationRequested.1 = true ∧
      ∀ edits : List TextEdit,
        promiseOutcome (onCancellationRequested.2 :: later) ≠
          some (Settlement.resolvedEdits edits) := by
  intro later
  refine ⟨rfl, rfl, ?_⟩
  intro edits h
  simp [promiseOutcome, onCancellationRequested] at h

/-- Witness for C5 with no later settlement attempts. -/
theorem c5_witness :
    promiseOutcome (onCancellationRequested.2 :: []) =
      some (Settlement.rejectedMsg "Cancelation requested") :=
  (c5_cancellation []).1

/-- C6: the argument list always contains `--compact-diff` and `-`, and the
pair `--config <path>` is appended iff a config path is configured
(defined and non-empty) and exists on disk. -/
theorem c6_argument_list :
    ∀ (cfgFile : Option String) (existsOnDisk : String → Bool),
      "--compact-diff" ∈ buildArgs cfgFile existsOnDisk ∧
      "-" ∈ buildArgs cfgFile existsOnDisk ∧
      (∀ f, cfgFile = some f → f ≠ "" → existsOnDisk f = true →
        buildArgs cfgFile existsOnDisk = ["--compact-diff", "-", "--config", f]) ∧
      ((∀ f, cfgFile = some f → f = "" ∨ existsOnDisk f = false) →
        buildArgs cfgFile existsOnDisk = ["--compact-diff", "-"]) ∧
      ("--config" ∈ buildArgs cfgFile existsOnDisk ↔
        ∃ f, cfgFile = some f ∧ f ≠ "" ∧ existsOnDisk f = true) := by
  intro cfgFile existsOnDisk
  cases cfgFile with
  | none =>
    have hargs : buildArgs none existsOnDisk = ["--compact-diff", "-"] := rfl
    refine ⟨by rw [hargs]; decide, by rw [hargs]; decide, ?_, ?_, ?_⟩
    · intro f hf; exact absurd hf (by simp)
    · intro _; exact hargs
    · constructor
      · intro hmem; rw [hargs] at hmem; exact absurd hmem (by decide)
      · rintro ⟨f, hf, -, -⟩; exact absurd hf (by simp)
  | some f =>
    by_cases hcond : f ≠ "" ∧ existsOnDisk f = true
    · have hargs : buildArgs (some f) existsOnDisk =
          ["--compact-diff", "-", "--config", f] := by
        simp only [buildArgs]
        rw [if_pos hcond]
        rfl
      refine ⟨?_, ?_, ?_, ?_, ?_⟩
      · rw [hargs]; exact List.mem_cons_self _ _
      · rw [hargs]; exact List.mem_cons_of_mem _ (List.mem_cons_self _ _)
      · intro g hg _ _
        cases Option.some.inj hg
        exact hargs
      · intro hall
        rcases hall f rfl with h | h
        · exact absurd h hcond.1
        · rw [hcond.2] at h; exact absurd h (by simp)
      · constructor
        · intro _; exact ⟨f, rfl, hcond.1, hcond.2⟩
        · intro _
          rw [hargs]
          exact List.mem_cons_of_mem _ (List.mem_cons_of_mem _ (List.mem_cons_self _ _))
    · have hargs : buildArgs (some f) existsOnDisk = ["--compact-diff", "-"] := by
        simp only [buildArgs]
        rw [if_neg]
        intro hc
        exact hcond ⟨hc.1, hc.2⟩
      refine ⟨?_, ?_, ?_, ?_, ?_⟩
      · rw [hargs]; decide
      · rw [hargs]; decide
      · intro g hg hne hex
        cases Option.some.inj hg
        exact absurd ⟨hne, hex⟩ hcond
      · intro _; exact hargs
      · constructor
        · intro hmem; rw [hargs] at hmem; exact absurd hmem (by decide)
        · rintro ⟨g, hg, hne, hex⟩
          cases Option.some.inj hg
          exact absurd ⟨hne, hex⟩ hcond

/-- Witness for C6: concrete argument lists with and without a config. -/
theorem c6_witness :
    buildArgs (some "pyproject.toml") (fun _ => true) =
      ["--compact-diff", "-", "--config", "pyproject.toml"] ∧
    buildArgs (some "pyproject.toml") (fun _ => false) = ["--compact-diff", "-"] :=
  ⟨(c6_argument_list (some "pyproject.toml") (fun _ => true)).2.2.1
      "pyproject.toml" rfl (by decide) rfl,
   (c6_argument_list (some "pyproject.toml") (fun _ => false)).2.2.2.1
      (fun f _ => Or.inr rfl)⟩

/-- C7: the executable locator returns an existing path unchanged, returns
the join of the first `PATH` directory containing the binary otherwise, and
returns the name unchanged when no directory matches. -/
theorem c7_getBinPath :
    ∀ (existsOnDisk : String → Bool) (pathEnv : Option String)
      (delimiter : Char) (joinPath : String → String → String) (binname : String),
      (existsOnDisk binname = true →
        getBinPath existsOnDisk pathEnv delimiter joinPath binname = binname) ∧
      (∀ p, pathEnv = some p → p ≠ "" → existsOnDisk binname = false →
        ∀ i (hi : i < ((splitOnChar delimiter p.data).map String.mk).length),
          existsOnDisk (joinPath (((splitOnChar delimiter p.data).map String.mk).get ⟨i, hi⟩)
            binname) = true →
          (∀ j (hj : j < i),
            existsOnDisk (joinPath (((splitOnChar delimiter p.data).map String.mk).get
              ⟨j, Nat.lt_trans hj hi⟩) binname) = false) →
          getBinPath existsOnDisk pathEnv delimiter joinPath binname =
            joinPath (((splitOnChar delimiter p.data).map String.mk).get ⟨i, hi⟩) binname) ∧
      (existsOnDisk binname = false →
        (∀ p, pathEnv = some p →
          ∀ d ∈ (splitOnChar delimiter p.data).map String.mk,
            existsOnDisk (joinPath d binname) = false) →
        getBinPath existsOnDisk pathEnv delimiter joinPath binname = binname) := by
  intro existsOnDisk pathEnv delimiter joinPath binname
  refine ⟨?_, ?_, ?_⟩
  · intro h
    simp [getBinPath, h]
  · intro p hp hne hnotexists i hi hfound hfirst
    subst hp
    have hfind := find?_eq_of_first (fun dir => existsOnDisk (joinPath dir binname))
      ((splitOnChar delimiter p.data).map String.mk) i hi hfound hfirst
    simp [getBinPath, hnotexists, hne, hfind]
  · intro hnotexists hnone
    cases pathEnv with
    | none => simp [getBinPath, hnotexists]
    | some p =>
      by_cases hne : p = ""
      · simp [getBinPath, hnotexists, hne]
      · have hfind : ((splitOnChar delimiter p.data).map String.mk).find?
            (fun dir => existsOnDisk (joinPath dir binname)) = none := by
          rw [List.find?_eq_none]
          intro d hd
          simp [hnone p rfl d hd]
        simp [getBinPath, hnotexists, hne, hfind]

/-- Witness for C7: the binary is found in the second `PATH` directory. -/
theorem c7_witness :
    getBinPath (fun s => decide (s = "/usr/bin/snakefmt")) (some "/sbin:/usr/bin") ':'
      (fun d n => d ++ "/" ++ n) "snakefmt" = "/usr/bin/snakefmt" := by
  have h := (c7_getBinPath (fun s => decide (s = "/usr/bin/snakefmt")) (some "/sbin:/usr/bin")
      ':' (fun d n => d ++ "/" ++ n) "snakefmt").2.1 "/sbin:/usr/bin" rfl (by decide)
      (by decide) 1 (by decide) (by decide) (by decide)
  exact h.trans (by decide)

/-- C8 counterexample: the claim says no character of a substitution value
is reinterpreted as a pattern or a replacement directive. But the code uses
JavaScript `String.prototype.replace` with the value as the replacement
string, so a value containing `$$` is reinterpreted: substituting the value
`$$` for the placeholder yields `$`, not the verbatim value. -/
theorem c8_counterexample :
    resolveVariables [("${cwd}".data, "$$".data)] none ["${cwd}".data] = ["$".data] ∧
    "$".data ≠ "$$".data := by
  refine ⟨by decide, by decide⟩

/-- C8 amended: placeholder keys are matched in isolation (literally, by
string search at the first occurrence — never as a regular expression), and
the substituted value is spliced verbatim provided it contains no `$`
character; `$`-sequences in a value (such as `$$` or `$&`) are
reinterpreted as replacement directives by JavaScript's `replace`. -/
theorem c8_substitution_verbatim_no_dollar :
    ∀ (a pat b repl : List Char),
      (∀ c ∈ repl, c ≠ '$') →
      (∀ i, i < a.length → List.isPrefixOf pat (List.drop i a ++ pat ++ b) = false) →
      resolveVariables [(pat, repl)] none [a ++ pat ++ b] = [a ++ repl ++ b] := by
  intro a pat b repl hnd hfirst
  have hsplice := replaceFirstFrom_splice pat repl b a [] hfirst
  have hexp := expandReplacement_no_dollar pat ([] ++ a) b repl hnd
  simp only [List.nil_append] at hsplice hexp
  rw [hexp] at hsplice
  have h2 : replaceFirstFrom pat repl [] (a ++ (pat ++ b)) = a ++ (repl ++ b) := by
    simpa using hsplice
  simp [resolveVariables, applySubstitutions, jsReplaceFirst, h2]

/-- Witness for the amended C8: a value without `$` is spliced verbatim. -/
theorem c8_witness :
    resolveVariables [("${cwd}".data, "/home/user".data)] none
      ["ab".data ++ "${cwd}".data ++ "tail".data] =
      ["ab".data ++ "/home/user".data ++ "tail".data] :=
  c8_substitution_verbatim_no_dollar "ab".data "${cwd}".data "tail".data "/home/user".data
    (by decide) (by decide)

/-- C9: `resolveVariables` substitutes at most the first occurrence of each
placeholder key: on an input consisting of the same placeholder twice, the
second occurrence survives unsubstituted (first conjunct, in general; the
second conjunct shows it on a doubled `workspaceFolder` placeholder). -/
theorem c9_first_occurrence_only :
    (∀ pat repl : List Char,
      resolveVariables [(pat, repl)] none [pat ++ pat] =
        [expandReplacement pat [] pat repl ++ pat]) ∧
    resolveVariables [("${workspaceFolder}".data, "/ws".data)] none
      [("${workspaceFolder}" ++ "${workspaceFolder}").data] =
      [("/ws" ++ "${workspaceFolder}").data] := by
  constructor
  · intro pat repl
    have hpre : List.isPrefixOf pat (pat ++ pat) = true :=
      List.isPrefixOf_iff_prefix.mpr (List.prefix_append pat pat)
    have hpos := replaceFirstFrom_pos pat repl [] (pat ++ pat) hpre
    simp only [List.drop_left, List.nil_append] at hpos
    simp [resolveVariables, applySubstitutions, jsReplaceFirst, hpos]
  · decide

/-- C10: the formatter subprocess is spawned with options containing only
the hidden-window flag and the output buffer ceiling; no working directory
is passed, and the options are independent of the document and workspace,
in particular they never contain the computed working path. -/
theorem c10_spawn_options_constant :
    ∀ (ws ws' : Option String) (doc doc' : DocumentInfo) (dirname : String → String),
      spawnOptions ws doc =
        { windowsHide := true, maxBuffer := 1024 * 1024 * 1024, cwd := none } ∧
      (spawnOptions ws doc).cwd = none ∧
      spawnOptions ws doc = spawnOptions ws' doc' ∧
      (spawnOptions ws doc).cwd ≠ some (workingPath ws doc dirname) := by
  intro ws ws' doc doc' dirname
  refine ⟨rfl, rfl, rfl, by simp [spawnOptions]⟩

/-- Witness for C10 at a concrete document and workspace. -/
theorem c10_witness :
    spawnOptions (some "/ws") ⟨"/ws/Snakefile", false, EndOfLine.LF⟩ =
      { windowsHide := true, maxBuffer := 1024 * 1024 * 1024, cwd := none } :=
  (c10_spawn_options_constant (some "/ws") (some "/ws") ⟨"/ws/Snakefile", false, EndOfLine.LF⟩
    ⟨"/ws/Snakefile", false, EndOfLine.LF⟩ id).1

end Snakefmt
